import Mathlib

/-!
Verification of `LongestHeadRun.py` (Schilling, "The longest run of heads",
College Math. J. 21.3 (1990)).  The Python functions are embedded as Lean
functions on `Nat` (machine/arbitrary-precision integers of the source are
exact integers), probabilities (Python floats obtained from exact integer
ratios) are embedded as rationals, and the sequence scanner is embedded as a
pure function that also returns the final state of the caller's list.
-/

/-- Embedding of `A_fair(n, x)` (src/LongestHeadRun.py lines 13-40):
`if n <= x: 2**n else: sum over num in n-1-arange(x+1) of A_fair(num, x)`. -/
def A_fair (n x : Nat) : Nat :=
  if n ≤ x then 2 ^ n
  else ∑ j ∈ Finset.range (x + 1), A_fair (n - 1 - j) x
termination_by n
decreasing_by omega

/-- Embedding of `B_fair(n, x)` (lines 43-67):
`if x == 0: 0 else: 2 * A_fair(n-1, x-1)`. -/
def B_fair (n x : Nat) : Nat :=
  if x = 0 then 0 else 2 * A_fair (n - 1) (x - 1)

/-- Embedding of `prob_longest_head_run_fair(n, x)` (lines 70-92):
`float(A_fair(n, x)) / 2**n`, as an exact rational. -/
def prob_longest_head_run_fair (n x : Nat) : ℚ :=
  (A_fair n x : ℚ) / 2 ^ n

/-- Embedding of `prob_longest_head_or_tail_run_fair(n, x)` (lines 95-117):
`prob_longest_head_run_fair(n-1, x-1)`. -/
def prob_longest_head_or_tail_run_fair (n x : Nat) : ℚ :=
  prob_longest_head_run_fair (n - 1) (x - 1)

/-- Embedding of `C(n, k, x)` (lines 120-149):
`if k <= x: binom(n, k) elif x < k < n: sum over zipped (k - arange(x+1),
n - 1 - arange(x+1)) of C(n_num, k_num, x) else: 0`
(`scipy.special.binom(n, k)` is `0` for `k > n`, as is `Nat.choose`). -/
def C (n k x : Nat) : Nat :=
  if k ≤ x then n.choose k
  else if x < k ∧ k < n then ∑ j ∈ Finset.range (x + 1), C (n - 1 - j) (k - j) x
  else 0
termination_by n
decreasing_by omega

/-- Embedding of `A_bias(n, x)` (lines 152-176):
`sum over k in arange(n+1) of C(n, k, x)`. -/
def A_bias (n x : Nat) : Nat :=
  ∑ k ∈ Finset.range (n + 1), C n k x

/-- Modelled from the spec: "Variant 1: `CountBoundedRunsEitherSymbol(n, x)` /
2^(n-1)" of `ProbabilityFairEitherBoundedRun`, a formula appearing in earlier
revisions of the source; the file under src/ implements Variant 2
(`prob_longest_head_or_tail_run_fair`). -/
def probEitherVariant1 (n x : Nat) : ℚ :=
  (B_fair n x : ℚ) / 2 ^ (n - 1)

/-! ### Ground truth for the counting layer

A binary sequence is a `List Bool` with `true` as the designated symbol
("heads").  `maxRun` is the longest run of `true`, `leadRun` the length of the
leading run of `true`; `allLists n` enumerates all `2 ^ n` sequences. -/

/-- Length of the leading run of `true`. -/
def leadRun : List Bool → Nat
  | [] => 0
  | b :: r => if b then leadRun r + 1 else 0

/-- Length of the longest run of `true`. -/
def maxRun : List Bool → Nat
  | [] => 0
  | b :: r => if b then max (leadRun r + 1) (maxRun r) else maxRun r

/-- All binary sequences of length `n`. -/
def allLists : Nat → List (List Bool)
  | 0 => [[]]
  | n + 1 => ((allLists n).map (fun l => true :: l)) ++ ((allLists n).map (fun l => false :: l))

/-- Number of binary sequences of length `n` whose longest run of the
designated symbol does not exceed `x` (the quantity `CountBoundedRuns` /
`A_fair` is specified to compute). -/
def boundedCount (n x : Nat) : Nat :=
  (allLists n).countP (fun l => decide (maxRun l ≤ x))

/-- `boundedCount` refined by a bound `b` on the leading run. -/
def dCount (n x b : Nat) : Nat :=
  (allLists n).countP (fun l => decide (maxRun l ≤ x ∧ leadRun l ≤ b))

/-- Number of binary sequences of length `n` with exactly `k` occurrences of
the designated symbol and longest run of it at most `x` (the quantity
`CountExactKRuns` / `C` is specified to compute). -/
def exactCount (n k x : Nat) : Nat :=
  (allLists n).countP (fun l => decide (l.count true = k ∧ maxRun l ≤ x))

/-- `exactCount` refined by a bound `b` on the leading run. -/
def dExact (n k x b : Nat) : Nat :=
  (allLists n).countP (fun l => decide (l.count true = k ∧ maxRun l ≤ x ∧ leadRun l ≤ b))

theorem leadRun_le_maxRun : ∀ l : List Bool, leadRun l ≤ maxRun l
  | [] => Nat.le_refl 0
  | b :: r => by
    cases b <;> simp [leadRun, maxRun]

theorem leadRun_le_length : ∀ l : List Bool, leadRun l ≤ l.length
  | [] => Nat.le_refl 0
  | false :: r => by simp [leadRun]
  | true :: r => by
    simp only [leadRun, if_true, List.length_cons]
    exact Nat.succ_le_succ (leadRun_le_length r)

theorem maxRun_le_length : ∀ l : List Bool, maxRun l ≤ l.length
  | [] => Nat.le_refl 0
  | false :: r => by
    simp only [maxRun, if_false, Bool.false_eq_true, List.length_cons]
    exact Nat.le_succ_of_le (maxRun_le_length r)
  | true :: r => by
    simp only [maxRun, if_true, List.length_cons]
    exact Nat.max_le.mpr
      ⟨Nat.succ_le_succ (leadRun_le_length r), Nat.le_succ_of_le (maxRun_le_length r)⟩

theorem leadRun_le_count : ∀ l : List Bool, leadRun l ≤ l.count true
  | [] => Nat.le_refl 0
  | false :: r => by simp [leadRun]
  | true :: r => by
    simp only [leadRun, if_true, List.count_cons_self]
    exact Nat.succ_le_succ (leadRun_le_count r)

theorem maxRun_le_count : ∀ l : List Bool, maxRun l ≤ l.count true
  | [] => Nat.le_refl 0
  | false :: r => by
    simp only [maxRun, if_false, Bool.false_eq_true]
    rw [List.count_cons_of_ne (by simp)]
    exact maxRun_le_count r
  | true :: r => by
    simp only [maxRun, if_true, List.count_cons_self]
    exact Nat.max_le.mpr
      ⟨Nat.succ_le_succ (leadRun_le_count r), Nat.le_succ_of_le (maxRun_le_count r)⟩

theorem length_allLists (n : Nat) : (allLists n).length = 2 ^ n := by
  induction n with
  | zero => rfl
  | succ n ih => simp [allLists, ih, Nat.pow_succ]; ring

theorem mem_allLists : ∀ (n : Nat) (l : List Bool), l ∈ allLists n ↔ l.length = n
  | 0, l => by
    cases l <;> simp [allLists]
  | n + 1, l => by
    cases l with
    | nil => simp [allLists]
    | cons b r =>
      cases b <;> simp [allLists, mem_allLists n]

theorem countP_allLists_succ (p : List Bool → Bool) (n : Nat) :
    (allLists (n + 1)).countP p
      = (allLists n).countP (fun l => p (true :: l))
        + (allLists n).countP (fun l => p (false :: l)) := by
  simp [allLists, Function.comp_def]

/-! ### The renewal recurrence for `boundedCount` -/

theorem dCount_zero_n (x b : Nat) : dCount 0 x b = 1 := by
  simp [dCount, allLists, maxRun, leadRun]

theorem boundedCount_eq_dCount (n x : Nat) : boundedCount n x = dCount n x x := by
  unfold boundedCount dCount
  refine List.countP_congr fun l _ => ?_
  simp only [decide_eq_true_eq]
  exact ⟨fun h => ⟨h, Nat.le_trans (leadRun_le_maxRun l) h⟩, fun h => h.1⟩

theorem boundedCount_of_le {n x : Nat} (h : n ≤ x) : boundedCount n x = 2 ^ n := by
  unfold boundedCount
  rw [← length_allLists n]
  refine List.countP_eq_length.mpr fun l hl => ?_
  simp only [decide_eq_true_eq]
  exact Nat.le_trans (maxRun_le_length l) (((mem_allLists n l).mp hl) ▸ h)

theorem dCount_succ_zero (n x : Nat) : dCount (n + 1) x 0 = boundedCount n x := by
  unfold dCount boundedCount
  rw [countP_allLists_succ]
  have h1 : ((allLists n).countP fun l => decide (maxRun (true :: l) ≤ x ∧ leadRun (true :: l) ≤ 0)) = 0 :=
    List.countP_eq_zero.mpr fun l _ => by simp [leadRun]
  have h2 : ((allLists n).countP fun l => decide (maxRun (false :: l) ≤ x ∧ leadRun (false :: l) ≤ 0))
      = (allLists n).countP fun l => decide (maxRun l ≤ x) :=
    List.countP_congr fun l _ => by simp [maxRun, leadRun]
  rw [h1, h2, Nat.zero_add]

theorem dCount_succ_succ (n x b : Nat) (hbx : b + 1 ≤ x) :
    dCount (n + 1) x (b + 1) = dCount n x b + boundedCount n x := by
  unfold dCount boundedCount
  rw [countP_allLists_succ]
  have h1 : ((allLists n).countP fun l => decide (maxRun (true :: l) ≤ x ∧ leadRun (true :: l) ≤ b + 1))
      = (allLists n).countP fun l => decide (maxRun l ≤ x ∧ leadRun l ≤ b) := by
    refine List.countP_congr fun l _ => ?_
    simp only [maxRun, leadRun, if_true, decide_eq_true_eq, Nat.max_le]
    constructor
    · rintro ⟨⟨_, h⟩, hlb⟩
      exact ⟨h, Nat.le_of_succ_le_succ hlb⟩
    · rintro ⟨hmx, hlb⟩
      exact ⟨⟨Nat.le_trans (Nat.succ_le_succ hlb) hbx, hmx⟩, Nat.succ_le_succ hlb⟩
  have h2 : ((allLists n).countP fun l => decide (maxRun (false :: l) ≤ x ∧ leadRun (false :: l) ≤ b + 1))
      = (allLists n).countP fun l => decide (maxRun l ≤ x) :=
    List.countP_congr fun l _ => by simp [maxRun, leadRun]
  rw [h1, h2]

theorem dCount_renewal : ∀ (b n x : Nat), b < n → b ≤ x →
    dCount n x b = ∑ j ∈ Finset.range (b + 1), boundedCount (n - 1 - j) x := by
  intro b
  induction b with
  | zero =>
    intro n x hbn _
    obtain ⟨m, rfl⟩ : ∃ m, n = m + 1 := ⟨n - 1, by omega⟩
    simp [dCount_succ_zero]
  | succ b ih =>
    intro n x hbn hbx
    obtain ⟨m, rfl⟩ : ∃ m, n = m + 1 := ⟨n - 1, by omega⟩
    have key : ∑ j ∈ Finset.range (b + 1 + 1), boundedCount (m + 1 - 1 - j) x
        = (∑ j ∈ Finset.range (b + 1), boundedCount (m - 1 - j) x) + boundedCount m x := by
      rw [Finset.sum_range_succ']
      simp only [Nat.add_sub_cancel, Nat.sub_zero]
      congr 1
      refine Finset.sum_congr rfl fun j _ => ?_
      congr 1
      omega
    rw [dCount_succ_succ m x b hbx, ih m x (by omega) (by omega)]
    exact key.symm

theorem boundedCount_renewal {n x : Nat} (h : x < n) :
    boundedCount n x = ∑ j ∈ Finset.range (x + 1), boundedCount (n - 1 - j) x :=
  (boundedCount_eq_dCount n x).trans (dCount_renewal x n x h (Nat.le_refl x))

theorem A_fair_eq_boundedCount (n x : Nat) : A_fair n x = boundedCount n x := by
  induction n using Nat.strong_induction_on with
  | _ n ih =>
    rw [A_fair]
    by_cases h : n ≤ x
    · rw [if_pos h, boundedCount_of_le h]
    · rw [if_neg h, boundedCount_renewal (Nat.lt_of_not_le h)]
      exact Finset.sum_congr rfl fun j _ => ih (n - 1 - j) (by omega)

/-! ### The exact-count layer: correctness of `C` -/

theorem leadRun_eq_length_of_all_true : ∀ l : List Bool, (∀ b ∈ l, b = true) → leadRun l = l.length
  | [], _ => rfl
  | b :: r, h => by
    have hb : b = true := h b (List.mem_cons_self b r)
    subst hb
    simp only [leadRun, if_true, List.length_cons]
    exact congrArg (· + 1) (leadRun_eq_length_of_all_true r fun c hc => h c (List.mem_cons_of_mem _ hc))

theorem countChoose : ∀ n k : Nat, ((allLists n).countP fun l => decide (l.count true = k)) = n.choose k
  | 0, k => by
    cases k <;> simp [allLists]
  | n + 1, k => by
    rw [countP_allLists_succ]
    cases k with
    | zero =>
      have h1 : ((allLists n).countP fun l => decide ((true :: l).count true = 0)) = 0 :=
        List.countP_eq_zero.mpr fun l _ => by simp
      have h2 : ((allLists n).countP fun l => decide ((false :: l).count true = 0))
          = (allLists n).countP fun l => decide (l.count true = 0) :=
        List.countP_congr fun l _ => by simp
      rw [h1, h2, countChoose n 0, Nat.zero_add, Nat.choose_zero_right, Nat.choose_zero_right]
    | succ k =>
      have h1 : ((allLists n).countP fun l => decide ((true :: l).count true = k + 1))
          = (allLists n).countP fun l => decide (l.count true = k) :=
        List.countP_congr fun l _ => by simp
      have h2 : ((allLists n).countP fun l => decide ((false :: l).count true = k + 1))
          = (allLists n).countP fun l => decide (l.count true = k + 1) :=
        List.countP_congr fun l _ => by simp
      rw [h1, h2, countChoose n k, countChoose n (k + 1), Nat.choose_succ_succ]

theorem exactCount_of_k_le {n k x : Nat} (h : k ≤ x) : exactCount n k x = n.choose k := by
  unfold exactCount
  rw [← countChoose n k]
  refine List.countP_congr fun l _ => ?_
  simp only [decide_eq_true_eq]
  exact ⟨fun hc => hc.1, fun hc => ⟨hc, Nat.le_trans (maxRun_le_count l) (hc ▸ h)⟩⟩

theorem exactCount_of_lt {n k x : Nat} (h : n < k) : exactCount n k x = 0 := by
  refine List.countP_eq_zero.mpr fun l hl => ?_
  simp only [decide_eq_true_eq, not_and]
  intro hc
  exact absurd hc (by have := List.count_le_length true l; rw [(mem_allLists n l).mp hl] at this; omega)

theorem exactCount_diag {n x : Nat} (h : x < n) : exactCount n n x = 0 := by
  refine List.countP_eq_zero.mpr fun l hl => ?_
  simp only [decide_eq_true_eq, not_and]
  intro hc hm
  have hlen : l.length = n := (mem_allLists n l).mp hl
  have hall : ∀ b ∈ l, b = true := fun b hb =>
    (List.count_eq_length.mp (by rw [hc, hlen]) b hb).symm
  have h1 : leadRun l = n := hlen ▸ leadRun_eq_length_of_all_true l hall
  have h2 := leadRun_le_maxRun l
  omega

theorem exactCount_eq_dExact (n k x : Nat) : exactCount n k x = dExact n k x x := by
  unfold exactCount dExact
  refine List.countP_congr fun l _ => ?_
  simp only [decide_eq_true_eq]
  exact ⟨fun h => ⟨h.1, h.2, Nat.le_trans (leadRun_le_maxRun l) h.2⟩, fun h => ⟨h.1, h.2.1⟩⟩

theorem dExact_zero_pos {k : Nat} (x b : Nat) (hk : k ≠ 0) : dExact 0 k x b = 0 := by
  refine List.countP_eq_zero.mpr fun l hl => ?_
  have : l = [] := by simpa [allLists] using hl
  subst this
  simp [hk, Ne.symm hk]

theorem dExact_succ_zero (n k x : Nat) : dExact (n + 1) k x 0 = exactCount n k x := by
  unfold dExact exactCount
  rw [countP_allLists_succ]
  have h1 : ((allLists n).countP fun l =>
      decide ((true :: l).count true = k ∧ maxRun (true :: l) ≤ x ∧ leadRun (true :: l) ≤ 0)) = 0 :=
    List.countP_eq_zero.mpr fun l _ => by simp [leadRun]
  have h2 : ((allLists n).countP fun l =>
      decide ((false :: l).count true = k ∧ maxRun (false :: l) ≤ x ∧ leadRun (false :: l) ≤ 0))
      = (allLists n).countP fun l => decide (l.count true = k ∧ maxRun l ≤ x) :=
    List.countP_congr fun l _ => by simp [maxRun, leadRun]
  rw [h1, h2, Nat.zero_add]

theorem dExact_succ_succ (n k x b : Nat) (hbx : b + 1 ≤ x) :
    dExact (n + 1) (k + 1) x (b + 1) = dExact n k x b + exactCount n (k + 1) x := by
  unfold dExact exactCount
  rw [countP_allLists_succ]
  have h1 : ((allLists n).countP fun l =>
      decide ((true :: l).count true = k + 1 ∧ maxRun (true :: l) ≤ x ∧ leadRun (true :: l) ≤ b + 1))
      = (allLists n).countP fun l => decide (l.count true = k ∧ maxRun l ≤ x ∧ leadRun l ≤ b) := by
    refine List.countP_congr fun l _ => ?_
    simp only [maxRun, leadRun, if_true, List.count_cons_self, decide_eq_true_eq, Nat.max_le]
    constructor
    · rintro ⟨hc, ⟨_, hm⟩, hlb⟩
      exact ⟨Nat.succ_injective hc, hm, Nat.le_of_succ_le_succ hlb⟩
    · rintro ⟨hc, hm, hlb⟩
      exact ⟨by omega, ⟨Nat.le_trans (Nat.succ_le_succ hlb) hbx, hm⟩, Nat.succ_le_succ hlb⟩
  have h2 : ((allLists n).countP fun l =>
      decide ((false :: l).count true = k + 1 ∧ maxRun (false :: l) ≤ x ∧ leadRun (false :: l) ≤ b + 1))
      = (allLists n).countP fun l => decide (l.count true = k + 1 ∧ maxRun l ≤ x) :=
    List.countP_congr fun l _ => by simp [maxRun, leadRun]
  rw [h1, h2]

theorem dExact_renewal : ∀ (b k n x : Nat), b < k → b ≤ x →
    dExact n k x b = ∑ j ∈ Finset.range (b + 1), exactCount (n - 1 - j) (k - j) x := by
  intro b
  induction b with
  | zero =>
    intro k n x hbk _
    obtain ⟨q, rfl⟩ : ∃ q, k = q + 1 := ⟨k - 1, by omega⟩
    cases n with
    | zero =>
      rw [dExact_zero_pos _ _ (Nat.succ_ne_zero q)]
      simp [exactCount_of_lt (Nat.succ_pos q)]
    | succ m =>
      simp [dExact_succ_zero]
  | succ b ih =>
    intro k n x hbk hbx
    obtain ⟨q, rfl⟩ : ∃ q, k = q + 1 := ⟨k - 1, by omega⟩
    cases n with
    | zero =>
      rw [dExact_zero_pos _ _ (Nat.succ_ne_zero q)]
      refine (Finset.sum_eq_zero fun j hj => ?_).symm
      have hj1 : j < b + 2 := Finset.mem_range.mp hj
      have : 0 < q + 1 - j := by omega
      exact exactCount_of_lt (by omega)
    | succ m =>
      have key : ∑ j ∈ Finset.range (b + 1 + 1), exactCount (m + 1 - 1 - j) (q + 1 - j) x
          = (∑ j ∈ Finset.range (b + 1), exactCount (m - 1 - j) (q - j) x)
            + exactCount m (q + 1) x := by
        rw [Finset.sum_range_succ']
        simp only [Nat.add_sub_cancel, Nat.sub_zero]
        congr 1
        refine Finset.sum_congr rfl fun j _ => ?_
        congr 1 <;> omega
      rw [dExact_succ_succ m q x b hbx, ih q m x (by omega) (by omega)]
      exact key.symm

theorem C_eq_exactCount (n k x : Nat) : C n k x = exactCount n k x := by
  induction n using Nat.strong_induction_on generalizing k with
  | _ n ih =>
    rw [C]
    by_cases hkx : k ≤ x
    · rw [if_pos hkx, exactCount_of_k_le hkx]
    · rw [if_neg hkx]
      by_cases h2 : x < k ∧ k < n
      · rw [if_pos h2, exactCount_eq_dExact n k x,
          dExact_renewal x k n x (Nat.lt_of_not_le hkx) (Nat.le_refl x)]
        exact Finset.sum_congr rfl fun j _ => ih (n - 1 - j) (by omega) (k - j)
      · rw [if_neg h2]
        have hxk : x < k := Nat.lt_of_not_le hkx
        have hnk : n ≤ k := by omega
        rcases Nat.lt_or_ge n k with h | h
        · exact (exactCount_of_lt h).symm
        · have : k = n := Nat.le_antisymm h hnk
          subst this
          exact (exactCount_diag hxk).symm

/-! ### Partitioning `boundedCount` by the number of heads -/

theorem sum_indicator_range (m v : Nat) (q : Prop) [Decidable q] (hv : v < m) :
    (∑ k ∈ Finset.range m, if v = k ∧ q then 1 else 0) = if q then 1 else 0 := by
  by_cases hq : q
  · simp only [hq, and_true]
    rw [Finset.sum_ite_eq]
    simp [Finset.mem_range.mpr hv]
  · simp [hq]

theorem countP_count_partition (x m : Nat) : ∀ L : List (List Bool),
    (∀ l ∈ L, l.count true < m) →
    L.countP (fun l => decide (maxRun l ≤ x))
      = ∑ k ∈ Finset.range m, L.countP (fun l => decide (l.count true = k ∧ maxRun l ≤ x))
  | [] => by simp
  | a :: t => fun h => by
    have ht := countP_count_partition x m t fun l hl => h l (List.mem_cons_of_mem a hl)
    simp only [List.countP_cons, ht, Finset.sum_add_distrib, decide_eq_true_eq]
    congr 1
    exact (sum_indicator_range m (a.count true) (maxRun a ≤ x)
      (h a (List.mem_cons_self a t))).symm

theorem boundedCount_partition (n x : Nat) :
    boundedCount n x = ∑ k ∈ Finset.range (n + 1), exactCount n k x := by
  unfold boundedCount exactCount
  refine countP_count_partition x (n + 1) (allLists n) fun l hl => ?_
  have := List.count_le_length true l
  have := (mem_allLists n l).mp hl
  omega

theorem A_bias_eq_A_fair_aux (n x : Nat) : A_bias n x = A_fair n x := by
  unfold A_bias
  rw [A_fair_eq_boundedCount, boundedCount_partition]
  exact Finset.sum_congr rfl fun k _ => C_eq_exactCount n k x

/-! ### Claims about the counting layer -/

/-- C1: for every `n ≥ 0` and `x ≥ 0`, `CountBoundedRuns` (`A_fair`) returns
the number of binary sequences of length `n` over a 2-symbol alphabet whose
longest run of the designated symbol does not exceed `x`; in particular, for
every `x ≥ n` (written `x = n + d`) it returns `2 ^ n`. -/
theorem A_fair_counts_bounded_runs :
    (∀ n x : Nat, A_fair n x = boundedCount n x) ∧ (∀ n d : Nat, A_fair n (n + d) = 2 ^ n) := by
  refine ⟨A_fair_eq_boundedCount, fun n d => ?_⟩
  rw [A_fair, if_pos (Nat.le_add_right n d)]

/-- C2: for every `n ≥ 0` and `x ≥ 0`, `CountBoundedRunsBiased` equals
`CountBoundedRuns`: `A_bias n x = ∑ k = 0..n, C n k x = A_fair n x` (the two
independent derivations agree). -/
theorem A_bias_agrees_with_A_fair : ∀ n x : Nat,
    A_bias n x = (∑ k ∈ Finset.range (n + 1), C n k x) ∧ A_bias n x = A_fair n x :=
  fun n x => ⟨rfl, A_bias_eq_A_fair_aux n x⟩

/-- C3: the two formula variants for `ProbabilityFairEitherBoundedRun` are not
algebraically identical: for some `n, x`, Variant 1
(`B_fair n x / 2 ^ (n-1)`) differs from Variant 2
(`prob_longest_head_or_tail_run_fair n x`, the one the code implements).
Witness: `n = 2, x = 1`, where Variant 1 gives `1` and Variant 2 gives `1/2`. -/
theorem prob_either_variants_differ :
    ∃ n x : Nat, probEitherVariant1 n x ≠ prob_longest_head_or_tail_run_fair n x := by
  refine ⟨2, 1, ?_⟩
  have h : A_fair 1 0 = 1 := (A_fair_eq_boundedCount 1 0).trans (by decide)
  simp only [probEitherVariant1, prob_longest_head_or_tail_run_fair,
    prob_longest_head_run_fair, B_fair, h]
  norm_num

set_option maxRecDepth 8000 in
theorem A_fair_8_3 : A_fair 8 3 = 208 := (A_fair_eq_boundedCount 8 3).trans (by decide)

/-- C4 counterexample: `A_fair 8 3` is `208`, not `227` as the spec claims,
and `prob_longest_head_run_fair 8 3` is not `227/256` (brute-force enumeration
of all 256 sequences, via `boundedCount`, also gives `208`). -/
theorem countBoundedRuns_8_3_spec_value_refuted :
    A_fair 8 3 ≠ 227 ∧ prob_longest_head_run_fair 8 3 ≠ 227 / 256 := by
  constructor
  · rw [A_fair_8_3]
    omega
  · rw [prob_longest_head_run_fair, A_fair_8_3]
    norm_num

/-- C4 amended: `CountBoundedRuns(8, 3)` (`A_fair 8 3`) equals `208`, and
consequently `ProbabilityFairBoundedRun(8, 3)` equals `208/256`. -/
theorem countBoundedRuns_8_3_eq_208 :
    A_fair 8 3 = 208 ∧ prob_longest_head_run_fair 8 3 = 208 / 256 := by
  refine ⟨A_fair_8_3, ?_⟩
  rw [prob_longest_head_run_fair, A_fair_8_3]
  norm_num

/-- C10: the recursive functions `A_fair` and `C` terminate and are total:
both are well-defined Lean functions (well-founded recursion on `n`, each
recursive call having `n - 1 - j < n` since the recursive branch requires
`x < n`, resp. `x < k < n`), and they satisfy their defining recurrences at
every input. -/
theorem A_fair_and_C_total_recurrences :
    (∀ n x : Nat, A_fair n x
      = if n ≤ x then 2 ^ n else ∑ j ∈ Finset.range (x + 1), A_fair (n - 1 - j) x)
    ∧ (∀ n k x : Nat, C n k x
      = if k ≤ x then n.choose k
        else if x < k ∧ k < n then ∑ j ∈ Finset.range (x + 1), C (n - 1 - j) (k - j) x
        else 0) := by
  constructor
  · intro n x
    rw [A_fair]
  · intro n k x
    rw [C]

/-! ### The sequence scanner `determine_longest_run`

The scanner (src/LongestHeadRun.py lines 241-335) is embedded over
`List String`.  Python's `set(sequence)` is modelled by `sequence.dedup`
(same cardinality and membership); `set.pop()`, an unspecified choice of an
element, is determinized to the head of the dedup list (none of the verified
properties depend on this choice).  Python raising an exception is modelled by
`Except.error`; since the degenerate single-value branch mutates the caller's
list (`sequence.pop()` removes its last element), the embedding returns the
final state of the caller's list alongside the result. -/

/-- The empty string (the Python literal compared against by the scanner). -/
def emptyString : String := ""

/-- The exceptions `determine_longest_run` can raise: the `AssertionError` for
more than 2 distinct values (line 278), the `ValueError` for an empty sequence
(line 288), and the `ValueError` for a missing `heads_val` (line 301). -/
inductive RunError where
  | tooManyDistinctValues (count : Nat)
  | emptySequence
  | valueNotFound (v : String)
deriving DecidableEq

/-- Loop state of the either-symbol scan (lines 302-303, 313-315):
`current_run`, `longest_run`, `longest_run_value`, `prev_entry`. -/
structure ScanState where
  currentRun : Nat
  longestRun : Nat
  longestRunValue : String
  prevEntry : String
deriving DecidableEq

/-- One iteration of the `only_heads=False` loop body (lines 316-334) at
enumeration index `i`. -/
def eitherStep (i : Nat) (s : ScanState) (entry : String) : ScanState :=
  let cr := if entry = s.prevEntry ∨ i = 0 then s.currentRun + 1 else 1
  let lr := if cr > s.longestRun then cr else s.longestRun
  let lv0 := if cr > s.longestRun then (if i = 0 then entry else s.prevEntry)
    else s.longestRunValue
  let lv := if cr = lr then
      (if lv0 = emptyString then entry
       else if lv0 ≠ entry then lv0 ++ "," ++ entry
       else lv0)
    else lv0
  ⟨cr, lr, lv, entry⟩

/-- The either-symbol scan (lines 313-335): fold the loop body over the
enumerated sequence, starting from `current_run = longest_run = 0` and
`prev_entry = longest_run_value = heads_val`. -/
def eitherLoop (hv : String) (l : List String) : Nat × String :=
  let st := (l.enum).foldl (fun s p => eitherStep p.1 s p.2) ⟨0, 0, hv, hv⟩
  (st.longestRun, st.longestRunValue)

/-- The `only_heads=True` scan loop (lines 304-312), carrying
`(current_run, longest_run)`. -/
def onlyHeadsLoop (hv : String) : List String → Nat → Nat → Nat
  | [], _, lr => lr
  | e :: rest, cr, lr =>
    if e = hv then
      onlyHeadsLoop hv rest (cr + 1) (if cr + 1 > lr then cr + 1 else lr)
    else
      onlyHeadsLoop hv rest 0 lr

/-- Dispatch between the two scan modes (lines 304-335). -/
def runScan (hv : String) (only_heads : Bool) (sequence : List String) : Nat × String :=
  if only_heads then (onlyHeadsLoop hv sequence 0 0, hv)
  else eitherLoop hv sequence

/-- Embedding of `determine_longest_run(sequence, heads_val=None,
only_heads=False)` (lines 241-335).  The second component of the result is
the final state of the caller's `sequence` list (it loses its last element in
the degenerate single-distinct-value branch, line 283, and is untouched
otherwise). -/
def determine_longest_run (sequence : List String) (heads_val : Option String)
    (only_heads : Bool) : Except RunError (Nat × String) × List String :=
  let sequence_set := sequence.dedup
  if 2 < sequence_set.length then
    (.error (.tooManyDistinctValues sequence_set.length), sequence)
  else if sequence_set.length = 1 then
    (.ok (sequence_set.length, (sequence.getLast?).getD emptyString), sequence.dropLast)
  else if sequence_set.length = 0 then
    (.error .emptySequence, sequence)
  else
    match heads_val with
    | none => (.ok (runScan (sequence_set.headD emptyString) only_heads sequence), sequence)
    | some v =>
      if v ∈ sequence_set then (.ok (runScan v only_heads sequence), sequence)
      else (.error (.valueNotFound v), sequence)

/-! ### Ground truth for the scanner -/

/-- Length of the leading run of consecutive equal values. -/
def leadRunAny : List String → Nat
  | [] => 0
  | [_] => 1
  | a :: b :: r => if a = b then leadRunAny (b :: r) + 1 else 1

/-- Length of the longest run of consecutive equal values (the maximum run
length over both symbols of a two-valued sequence). -/
def maxRunAny : List String → Nat
  | [] => 0
  | a :: r => max (leadRunAny (a :: r)) (maxRunAny r)

/-- Length of the leading run of the value `v`. -/
def headLead (v : String) : List String → Nat
  | [] => 0
  | a :: r => if a = v then headLead v r + 1 else 0

/-- The maximum number of consecutive occurrences of the value `v` (ground
truth for the `only_heads=True` mode). -/
def headMax (v : String) : List String → Nat
  | [] => 0
  | a :: r => if a = v then max (headLead v r + 1) (headMax v r) else headMax v r

/-- Leading run of the tail list when it continues runs of the value `v`. -/
def leadMatch (v : String) : List String → Nat
  | [] => 0
  | b :: t => if b = v then leadRunAny (b :: t) else 0

theorem ite_gt_eq_max (a b : Nat) : (if a > b then a else b) = max b a := by
  split <;> omega

theorem headLead_le_headMax (v : String) : ∀ l : List String, headLead v l ≤ headMax v l
  | [] => Nat.le_refl 0
  | a :: r => by
    by_cases h : a = v <;> simp [headLead, headMax, h]

theorem onlyHeadsLoop_invariant (hv : String) :
    ∀ (l : List String) (cr lr : Nat), cr ≤ lr →
      onlyHeadsLoop hv l cr lr = max lr (max (cr + headLead hv l) (headMax hv l))
  | [], cr, lr, h => by
    simp only [onlyHeadsLoop, headLead, headMax]
    omega
  | e :: rest, cr, lr, h => by
    by_cases he : e = hv
    · rw [onlyHeadsLoop, if_pos he, ite_gt_eq_max,
        onlyHeadsLoop_invariant hv rest (cr + 1) (max lr (cr + 1)) (Nat.le_max_right lr (cr + 1)),
        headLead, if_pos he, headMax, if_pos he]
      omega
    · rw [onlyHeadsLoop, if_neg he,
        onlyHeadsLoop_invariant hv rest 0 lr (Nat.zero_le lr),
        headLead, if_neg he, headMax, if_neg he]
      have := headLead_le_headMax hv rest
      omega

theorem onlyHeadsLoop_eq_headMax (hv : String) (l : List String) :
    onlyHeadsLoop hv l 0 0 = headMax hv l := by
  rw [onlyHeadsLoop_invariant hv l 0 0 (Nat.le_refl 0)]
  have := headLead_le_headMax hv l
  omega


theorem leadRunAny_cons (e : String) (r : List String) :
    leadRunAny (e :: r) = leadMatch e r + 1 := by
  cases r with
  | nil => rfl
  | cons b t =>
    by_cases hb : b = e
    · simp [leadRunAny, leadMatch, hb]
    · simp [leadRunAny, leadMatch, hb, Ne.symm hb]

/-- The tail of the either-symbol scan: folding the loop body at indices
`≥ 1`, where the body no longer depends on the index. -/
def eitherFoldTail (st : ScanState) (rest : List String) : ScanState :=
  rest.foldl (fun s e => eitherStep 1 s e) st

theorem eitherStep_pos (i : Nat) (s : ScanState) (e : String) (h : i ≠ 0) :
    eitherStep i s e = eitherStep 1 s e := by
  simp [eitherStep, h]

theorem foldl_enumFrom_eq (rest : List String) :
    ∀ (k : Nat) (s : ScanState), k ≠ 0 →
      (rest.enumFrom k).foldl (fun s p => eitherStep p.1 s p.2) s = eitherFoldTail s rest := by
  induction rest with
  | nil => intro k s _; rfl
  | cons e r ih =>
    intro k s hk
    simp only [List.enumFrom_cons, List.foldl_cons]
    rw [eitherStep_pos k s e hk, ih (k + 1) (eitherStep 1 s e) (Nat.succ_ne_zero k)]
    rfl

theorem eitherStep_zero (hv e : String) : eitherStep 0 ⟨0, 0, hv, hv⟩ e = ⟨1, 1, e, e⟩ := by
  simp [eitherStep]

theorem eitherLoop_cons (hv e : String) (rest : List String) :
    eitherLoop hv (e :: rest)
      = ((eitherFoldTail ⟨1, 1, e, e⟩ rest).longestRun,
         (eitherFoldTail ⟨1, 1, e, e⟩ rest).longestRunValue) := by
  unfold eitherLoop
  simp only [List.enum_cons, List.foldl_cons]
  rw [eitherStep_zero hv e, foldl_enumFrom_eq rest 1 _ Nat.one_ne_zero]

theorem eitherLoop_hv_irrel (hv hv2 : String) (l : List String) (h : l ≠ []) :
    eitherLoop hv l = eitherLoop hv2 l := by
  cases l with
  | nil => exact absurd rfl h
  | cons e rest => rw [eitherLoop_cons hv e rest, eitherLoop_cons hv2 e rest]

theorem eitherStep_one_currentRun (s : ScanState) (e : String) :
    (eitherStep 1 s e).currentRun = if e = s.prevEntry then s.currentRun + 1 else 1 := by
  simp [eitherStep]

theorem eitherStep_one_longestRun (s : ScanState) (e : String) :
    (eitherStep 1 s e).longestRun
      = max s.longestRun (if e = s.prevEntry then s.currentRun + 1 else 1) := by
  simp only [eitherStep, Nat.one_ne_zero, or_false]
  rw [ite_gt_eq_max]

theorem eitherStep_one_prevEntry (s : ScanState) (e : String) :
    (eitherStep 1 s e).prevEntry = e := by
  simp [eitherStep]

theorem eitherFoldTail_lr :
    ∀ (rest : List String) (s : ScanState), s.currentRun ≤ s.longestRun →
      (eitherFoldTail s rest).longestRun
        = max s.longestRun (max (s.currentRun + leadMatch s.prevEntry rest) (maxRunAny rest))
  | [], s, h => by
    simp only [eitherFoldTail, List.foldl_nil, leadMatch, maxRunAny]
    omega
  | e :: r, s, h => by
    have hfold : eitherFoldTail s (e :: r) = eitherFoldTail (eitherStep 1 s e) r := rfl
    have hcr := eitherStep_one_currentRun s e
    have hlr := eitherStep_one_longestRun s e
    have hpe := eitherStep_one_prevEntry s e
    have hinv : (eitherStep 1 s e).currentRun ≤ (eitherStep 1 s e).longestRun := by
      rw [hcr, hlr]
      exact Nat.le_max_right _ _
    rw [hfold, eitherFoldTail_lr r (eitherStep 1 s e) hinv, hcr, hlr, hpe]
    simp only [leadMatch, maxRunAny, leadRunAny_cons e r]
    by_cases hp : e = s.prevEntry
    · simp only [if_pos hp]
      omega
    · simp only [if_neg hp]
      omega

theorem eitherLoop_fst (hv e : String) (rest : List String) :
    (eitherLoop hv (e :: rest)).1 = maxRunAny (e :: rest) := by
  rw [eitherLoop_cons hv e rest]
  have h := eitherFoldTail_lr rest ⟨1, 1, e, e⟩ (Nat.le_refl 1)
  simp only at h
  rw [show ((eitherFoldTail ⟨1, 1, e, e⟩ rest).longestRun,
      (eitherFoldTail ⟨1, 1, e, e⟩ rest).longestRunValue).1
    = (eitherFoldTail ⟨1, 1, e, e⟩ rest).longestRun from rfl, h]
  simp only [maxRunAny, leadRunAny_cons e rest]
  omega

/-! ### Branch behaviour of `determine_longest_run` -/

theorem dlr_of_gt2 (l : List String) (hv : Option String) (oh : Bool)
    (h : 2 < l.dedup.length) :
    determine_longest_run l hv oh
      = (.error (.tooManyDistinctValues l.dedup.length), l) := by
  simp only [determine_longest_run]
  rw [if_pos h]

theorem dlr_of_one (l : List String) (hv : Option String) (oh : Bool)
    (h : l.dedup.length = 1) :
    determine_longest_run l hv oh
      = (.ok (1, (l.getLast?).getD emptyString), l.dropLast) := by
  have h2 : ¬ 2 < l.dedup.length := by omega
  simp only [determine_longest_run]
  rw [if_neg h2, if_pos h, h]

theorem dlr_of_zero (l : List String) (hv : Option String) (oh : Bool)
    (h : l.dedup.length = 0) :
    determine_longest_run l hv oh = (.error .emptySequence, l) := by
  have h2 : ¬ 2 < l.dedup.length := by omega
  have h1 : ¬ l.dedup.length = 1 := by omega
  simp only [determine_longest_run]
  rw [if_neg h2, if_neg h1, if_pos h]

theorem dlr_of_two_none (l : List String) (oh : Bool) (h : l.dedup.length = 2) :
    determine_longest_run l none oh
      = (.ok (runScan (l.dedup.headD emptyString) oh l), l) := by
  have h2 : ¬ 2 < l.dedup.length := by omega
  have h1 : ¬ l.dedup.length = 1 := by omega
  have h0 : ¬ l.dedup.length = 0 := by omega
  simp only [determine_longest_run]
  rw [if_neg h2, if_neg h1, if_neg h0]

theorem dlr_of_two_some_mem (l : List String) (oh : Bool) (v : String)
    (h : l.dedup.length = 2) (hm : v ∈ l) :
    determine_longest_run l (some v) oh = (.ok (runScan v oh l), l) := by
  have h2 : ¬ 2 < l.dedup.length := by omega
  have h1 : ¬ l.dedup.length = 1 := by omega
  have h0 : ¬ l.dedup.length = 0 := by omega
  simp only [determine_longest_run]
  rw [if_neg h2, if_neg h1, if_neg h0]
  simp only [List.mem_dedup, hm, if_true]

theorem dlr_of_two_some_not_mem (l : List String) (oh : Bool) (v : String)
    (h : l.dedup.length = 2) (hm : v ∉ l) :
    determine_longest_run l (some v) oh = (.error (.valueNotFound v), l) := by
  have h2 : ¬ 2 < l.dedup.length := by omega
  have h1 : ¬ l.dedup.length = 1 := by omega
  have h0 : ¬ l.dedup.length = 0 := by omega
  simp only [determine_longest_run]
  rw [if_neg h2, if_neg h1, if_neg h0]
  simp only [List.mem_dedup, hm, if_false]

theorem dedup_all_eq : ∀ (l : List String) (v : String), l ≠ [] → (∀ a ∈ l, a = v) → l.dedup = [v]
  | [a], v, _, h => by
    rw [h a (List.mem_singleton_self a), List.dedup_cons_of_not_mem (List.not_mem_nil v),
      List.dedup_nil]
  | a :: b :: t, v, _, h => by
    have ha : a = v := h a (List.mem_cons_self a (b :: t))
    have hb : b = v := h b (List.mem_cons_of_mem a (List.mem_cons_self b t))
    have hrest : (b :: t).dedup = [v] :=
      dedup_all_eq (b :: t) v (List.cons_ne_nil b t) fun c hc => h c (List.mem_cons_of_mem a hc)
    rw [List.dedup_cons_of_mem (by rw [ha, ← hb]; exact List.mem_cons_self b t), hrest]

theorem getLast_all_eq (l : List String) (v : String) (hne : l ≠ []) (h : ∀ a ∈ l, a = v) :
    (l.getLast?).getD emptyString = v := by
  rw [List.getLast?_eq_getLast l hne, Option.getD_some]
  exact h _ (List.getLast_mem hne)

/-! ### Claims about the scanner -/

/-- C5 counterexample: with one distinct value and a supplied `heads_val`
absent from the observed values (`["H", "H"]` with `heads_val = "T"`),
`determine_longest_run` does not raise: the degenerate single-value branch
returns `(1, "H")` before the `heads_val` membership check is reached. -/
theorem determine_longest_run_absent_heads_val_no_error :
    determine_longest_run ["H", "H"] (some "T") false = (.ok (1, "H"), ["H"])
    ∧ "T" ∉ ["H", "H"] := by
  exact ⟨rfl, by decide⟩

/-- C5 (amended): `determine_longest_run` raises an error if and only if the
sequence has zero distinct values, more than 2 distinct values, or has exactly
2 distinct values while `heads_val` is supplied and absent from the observed
values (with exactly 1 distinct value the degenerate branch returns normally
even when a supplied `heads_val` is absent). -/
theorem determine_longest_run_error_iff :
    ∀ (l : List String) (hv : Option String) (oh : Bool),
      (∃ e, (determine_longest_run l hv oh).1 = .error e)
        ↔ (l.dedup.length = 0 ∨ 2 < l.dedup.length
            ∨ (l.dedup.length = 2 ∧ ∃ v, hv = some v ∧ v ∉ l)) := by
  intro l hv oh
  by_cases h2 : 2 < l.dedup.length
  · rw [dlr_of_gt2 l hv oh h2]
    simp [h2]
  · by_cases h1 : l.dedup.length = 1
    · rw [dlr_of_one l hv oh h1]
      simp [h1]
    · by_cases h0 : l.dedup.length = 0
      · rw [dlr_of_zero l hv oh h0]
        simp [h0]
      · have hd2 : l.dedup.length = 2 := by omega
        cases hv with
        | none =>
          rw [dlr_of_two_none l oh hd2]
          simp [hd2]
        | some v =>
          by_cases hm : v ∈ l
          · rw [dlr_of_two_some_mem l oh v hd2 hm]
            simp [hd2, hm]
          · rw [dlr_of_two_some_not_mem l oh v hd2 hm]
            simp [hd2, hm]

/-- C6: on a non-empty sequence whose elements are all equal (exactly 1
distinct value) `determine_longest_run` returns run length 1 (the size of the
distinct-value set, not the sequence length) together with that value, and the
caller's list loses an element (its last); on every input that does not take
this branch the caller's list is returned unchanged. -/
theorem determine_longest_run_degenerate_and_frame :
    (∀ (l : List String) (v : String) (hv : Option String) (oh : Bool),
        l ≠ [] → (∀ a ∈ l, a = v) →
        determine_longest_run l hv oh = (.ok (1, v), l.dropLast))
    ∧ (∀ (l : List String) (hv : Option String) (oh : Bool),
        l.dedup.length ≠ 1 → (determine_longest_run l hv oh).2 = l) := by
  constructor
  · intro l v hv oh hne hall
    have hd1 : l.dedup.length = 1 := by rw [dedup_all_eq l v hne hall]; rfl
    rw [dlr_of_one l hv oh hd1, getLast_all_eq l v hne hall]
  · intro l hv oh hne1
    by_cases h2 : 2 < l.dedup.length
    · rw [dlr_of_gt2 l hv oh h2]
    · by_cases h0 : l.dedup.length = 0
      · rw [dlr_of_zero l hv oh h0]
      · have hd2 : l.dedup.length = 2 := by omega
        cases hv with
        | none => rw [dlr_of_two_none l oh hd2]
        | some v =>
          by_cases hm : v ∈ l
          · rw [dlr_of_two_some_mem l oh v hd2 hm]
          · rw [dlr_of_two_some_not_mem l oh v hd2 hm]

theorem determine_longest_run_degenerate_witness :
    determine_longest_run ["H", "H"] none false = (.ok (1, "H"), ["H"]) :=
  determine_longest_run_degenerate_and_frame.1 ["H", "H"] "H" none false
    (by decide) (by decide)

/-- C7: on a sequence with exactly two distinct values and `heads_val` among
them, `only_heads = true` returns `(m, heads_val)` where `m` is the maximum
number of consecutive occurrences of `heads_val`; in particular
`determine_longest_run(["H","H","T","H","H","H"], "H", True) = (3, "H")`. -/
theorem determine_longest_run_only_heads_correct :
    (∀ (l : List String) (v : String), l.dedup.length = 2 → v ∈ l →
        determine_longest_run l (some v) true = (.ok (headMax v l, v), l))
    ∧ determine_longest_run ["H", "H", "T", "H", "H", "H"] (some "H") true
        = (.ok (3, "H"), ["H", "H", "T", "H", "H", "H"]) := by
  constructor
  · intro l v hd hm
    rw [dlr_of_two_some_mem l true v hd hm]
    unfold runScan
    rw [if_pos rfl, onlyHeadsLoop_eq_headMax v l]
  · rfl

theorem determine_longest_run_only_heads_witness :
    determine_longest_run ["H", "T"] (some "H") true
      = (.ok (headMax "H" ["H", "T"], "H"), ["H", "T"]) :=
  determine_longest_run_only_heads_correct.1 ["H", "T"] "H" (by decide) (by decide)

/-- C8 counterexample: the sequence `["H", "T", "H"]` has exactly two distinct
values and both attain the maximal run length 1, yet the either-symbol mode
returns the label `"H,T,H"`, which is not the two symbol values joined by a
comma (in either order): the tie-update concatenates a symbol each time a run
ties the current maximum, re-appending values already in the label. -/
theorem determine_longest_run_tie_label_counterexample :
    determine_longest_run ["H", "T", "H"] (some "H") false
        = (.ok (1, "H,T,H"), ["H", "T", "H"])
    ∧ headMax "H" ["H", "T", "H"] = 1 ∧ headMax "T" ["H", "T", "H"] = 1
    ∧ "H,T,H" ≠ "H,T" ∧ "H,T,H" ≠ "T,H" := by
  refine ⟨rfl, rfl, rfl, ?_, ?_⟩ <;> decide

/-- C8 (amended): on every sequence with exactly two distinct values (and a
valid `heads_val`), the either-symbol mode returns the maximum run length over
both symbols; on a tie the value component is a comma-joined label that
accumulates a symbol each time a run ties the current maximum (so it need not
be exactly the two values joined once); in particular
`determine_longest_run(["H","H","T","T"], only_heads=False) = (2, "H,T")`. -/
theorem determine_longest_run_either_mode :
    (∀ (l : List String) (hv : Option String), l.dedup.length = 2 →
        (hv = none ∨ ∃ v, hv = some v ∧ v ∈ l) →
        ∃ s, determine_longest_run l hv false = (.ok (maxRunAny l, s), l))
    ∧ determine_longest_run ["H", "H", "T", "T"] none false
        = (.ok (2, "H,T"), ["H", "H", "T", "T"]) := by
  constructor
  · intro l hv hd hcases
    have hne : l ≠ [] := by
      intro h
      subst h
      simp at hd
    obtain ⟨e, rest, rfl⟩ : ∃ e rest, l = e :: rest := by
      cases l with
      | nil => exact absurd rfl hne
      | cons e rest => exact ⟨e, rest, rfl⟩
    rcases hcases with rfl | ⟨v, rfl, hm⟩
    · rw [dlr_of_two_none _ false hd]
      refine ⟨(eitherLoop ((e :: rest).dedup.headD emptyString) (e :: rest)).2, ?_⟩
      unfold runScan
      rw [if_neg Bool.false_ne_true, ← eitherLoop_fst ((e :: rest).dedup.headD emptyString) e rest]
    · rw [dlr_of_two_some_mem _ false v hd hm]
      refine ⟨(eitherLoop v (e :: rest)).2, ?_⟩
      unfold runScan
      rw [if_neg Bool.false_ne_true, ← eitherLoop_fst v e rest]
  · rfl

theorem determine_longest_run_either_mode_witness :
    ∃ s, determine_longest_run ["H", "T"] none false
      = (.ok (maxRunAny ["H", "T"], s), ["H", "T"]) :=
  determine_longest_run_either_mode.1 ["H", "T"] none (by decide) (Or.inl rfl)

/-- C9: on a sequence with exactly two distinct values, the run length the
either-symbol mode reports is the same whichever of the two values is passed
as `heads_val` (the initial `prev_entry`/`longest_run_value` seeded from
`heads_val` is overwritten at index 0, so the scan does not depend on it). -/
theorem determine_longest_run_relabel_invariant :
    ∀ (l : List String) (v w : String), l.dedup.length = 2 → v ∈ l → w ∈ l →
      ∃ n s t, determine_longest_run l (some v) false = (.ok (n, s), l)
        ∧ determine_longest_run l (some w) false = (.ok (n, t), l) := by
  intro l v w hd hv hw
  have hne : l ≠ [] := by
    intro h
    subst h
    simp at hd
  have heq : eitherLoop v l = eitherLoop w l := eitherLoop_hv_irrel v w l hne
  refine ⟨(eitherLoop v l).1, (eitherLoop v l).2, (eitherLoop w l).2, ?_, ?_⟩
  · rw [dlr_of_two_some_mem l false v hd hv]
    unfold runScan
    rw [if_neg Bool.false_ne_true]
  · rw [dlr_of_two_some_mem l false w hd hw]
    unfold runScan
    rw [if_neg Bool.false_ne_true, heq]

theorem determine_longest_run_relabel_witness :
    ∃ n s t, determine_longest_run ["H", "T"] (some "H") false = (.ok (n, s), ["H", "T"])
      ∧ determine_longest_run ["H", "T"] (some "T") false = (.ok (n, t), ["H", "T"]) :=
  determine_longest_run_relabel_invariant ["H", "T"] "H" "T" (by decide) (by decide) (by decide)
